import Mathlib

/-!
Verification of the directory replication engine of `temman` (src/temman.py).

The development shallowly embeds the engine:

* Python strings (path segments and whole paths) are `List Char`.
* `change_prefix` is a direct translation of `change_prefix` (temman.py:330-340).
* The rename direction flag `lengthen_dots` selects the prefix pair exactly as
  in `__copy_dir_rec` (temman.py:288-293).
* `pyJoin` models `os.path.join` on the shapes the program uses
  (second argument relative unless it starts with '/').
* `splitPy` models `os.path.split` (split at last '/', strip trailing
  slashes from the head unless the head is all slashes).
* `collect` models the `while head != os.path.realpath(inp_master_dir)`
  segment-collection loop of the symlink branch (temman.py:313-318).  The
  Python loop has no fuel; `collect` takes explicit fuel and returns `none`
  when the fuel runs out, which models non-termination.  `defaultFuel`
  (length of the start path + 1) is enough fuel for every terminating run of
  the loop, because every productive `os.path.split` step strictly shortens
  the path and the only stationary points ("/" and similar all-slash
  strings) never equal the master root unless the loop has already stopped;
  `collect_defaultFuel_complete` below proves this.
* `symlink_new_target` packages the whole symlink retargeting computation
  (temman.py:309-322): the `startswith` classification, the collection loop,
  `str.join("", reversed(new_subpath))` (note: joined with the EMPTY string,
  not with a path separator) and the final `os.path.join` onto the output
  master directory.  `realpath` results are taken as inputs: `masterR` is
  the resolved master source root and `absTarget` the resolved link target,
  exactly the two values the Python code compares.

Later sections embed the full recursive copy (`__copy_dir_rec`) over an
inductive model of the source tree and an explicit filesystem state,
recording a trace of the filesystem operations and progress prints.
-/

abbrev Str := List Char

/-- Reserved long marker for a leading dot (temman.py:48). -/
def DOTS_LONG : Str := "DOT_".data

/-- Translation of `change_prefix` (temman.py:330-340): if `name` starts
with `oldPre`, replace that prefix by `newPre`, otherwise return `name`. -/
def change_prefix (oldPre newPre name : Str) : Str :=
  if oldPre.isPrefixOf name then newPre ++ name.drop oldPre.length else name

/-- The `old_prefix` selected from the direction flag (temman.py:288-293). -/
def oldPref (lengthen_dots : Bool) : Str :=
  if lengthen_dots then ".".data else DOTS_LONG

/-- The `new_prefix` selected from the direction flag (temman.py:288-293). -/
def newPref (lengthen_dots : Bool) : Str :=
  if lengthen_dots then DOTS_LONG else ".".data

/-- The rename applied to one path segment by `__copy_dir_rec`
(temman.py:297): `change_prefix(old_prefix, new_prefix, name)`. -/
def rename1 (lengthen_dots : Bool) (name : Str) : Str :=
  change_prefix (oldPref lengthen_dots) (newPref lengthen_dots) name

/-- Model of `os.path.join a b` for the uses in the program: if `b` is
absolute it wins; joining onto the empty string or onto a string that ends
with '/' does not insert a separator; otherwise a '/' is inserted. -/
def pyJoin (a b : Str) : Str :=
  if b.head? = some '/' then b
  else if a = [] then b
  else if a.getLast? = some '/' then a ++ b
  else a ++ '/' :: b

/-- Model of `os.path.split p`: split at the last '/'; the head keeps no
trailing slashes unless it consists only of slashes.  Working on the
reversed string, the tail is the maximal slash-free suffix and stripping
trailing slashes of the head is dropping leading slashes of its reverse. -/
def splitPy (p : Str) : Str × Str :=
  let rev := p.reverse
  let tailRev := rev.takeWhile (fun c => !(c == '/'))
  let headRev := rev.dropWhile (fun c => !(c == '/'))
  let headRev2 := if headRev.all (fun c => c == '/') then headRev
                  else headRev.dropWhile (fun c => c == '/')
  (headRev2.reverse, tailRev.reverse)

/-- The segment-collection loop of the internal-symlink branch
(temman.py:313-318), with explicit fuel (`none` = the Python loop does not
terminate within the given number of iterations).  Each iteration appends
the renamed tail segment to the accumulator, as `new_subpath.append(...)`
does. -/
def collect (lengthen_dots : Bool) (masterR : Str) :
    Nat → Str → List Str → Option (List Str)
  | 0, _, _ => none
  | fuel+1, head, acc =>
    if head = masterR then some acc
    else
      collect lengthen_dots masterR fuel (splitPy head).1
        (acc ++ [rename1 lengthen_dots (splitPy head).2])

/-- Fuel that suffices for every terminating run of the collection loop
started at `absTarget` (proved by `collect_defaultFuel_complete`). -/
def defaultFuel (absTarget : Str) : Nat := absTarget.length + 1

/-- The new symlink target computed by `__copy_dir_rec` (temman.py:309-322)
from the resolved master source root `masterR`, the output master directory
`outMaster` and the resolved link target `absTarget`.  Internal links
(string-prefix test, temman.py:310) get `os.path.join(output_master_dir,
str.join("", reversed(new_subpath)))`; external links keep `absTarget`
verbatim.  `none` models the non-terminating collection loop. -/
def symlink_new_target (lengthen_dots : Bool)
    (masterR outMaster absTarget : Str) : Option Str :=
  if masterR.isPrefixOf absTarget then
    (collect lengthen_dots masterR (defaultFuel absTarget) absTarget []).map
      (fun segs => pyJoin outMaster (List.flatten segs.reverse))
  else some absTarget

/-- Strip trailing slashes; two paths are the same directory entry up to a
trailing slash iff their `stripSlashes` agree. -/
def stripSlashes (p : Str) : Str := (p.reverse.dropWhile (· = '/')).reverse

/-! ### Facts about the collection loop and its fuel -/

theorem collect_mono (l : Bool) (R : Str) :
    ∀ (n m : Nat) (h : Str) (acc r : List Str), n ≤ m →
      collect l R n h acc = some r → collect l R m h acc = some r := by
  intro n
  induction n with
  | zero => intro m h acc r _ hc; simp [collect] at hc
  | succ k ih =>
    intro m h acc r hle hc
    match m, hle with
    | m+1, hle =>
      rw [collect] at hc ⊢
      by_cases he : h = R
      · simpa [he] using hc
      · simp only [he, if_false] at hc ⊢
        exact ih m _ _ r (Nat.le_of_succ_le_succ hle) hc

theorem splitPy_shrink (h : Str) :
    (splitPy h).1 = h ∨ (splitPy h).1.length < h.length := by
  unfold splitPy
  simp only
  have hsplit : h.reverse.takeWhile (fun c => !(c == '/')) ++
      h.reverse.dropWhile (fun c => !(c == '/')) = h.reverse :=
    List.takeWhile_append_dropWhile _ _
  by_cases htw : h.reverse.takeWhile (fun c => !(c == '/')) = []
  · -- slash-free suffix of h is empty
    have hdf : h.reverse.dropWhile (fun c => !(c == '/')) = h.reverse := by
      have hd := hsplit
      rw [htw, List.nil_append] at hd
      exact hd
    rw [hdf]
    by_cases hall : h.reverse.all (fun c => c == '/')
    · left; simp [hall]
    · right
      rw [if_neg hall]
      rcases hrev' : h.reverse with _ | ⟨c, rest⟩
      · exact absurd (by rw [hrev']; rfl) hall
      · have hc : c = '/' := by
          by_contra hne
          rw [hrev', List.takeWhile_cons] at htw
          have hb : (!(c == '/')) = true := by
            simp [hne]
          rw [hb] at htw
          simp at htw
        subst hc
        have hlen : h.length = rest.length + 1 := by
          have hl2 : h.reverse.length = rest.length + 1 := by rw [hrev']; rfl
          rwa [List.length_reverse] at hl2
        rw [List.dropWhile_cons]
        simp only [beq_self_eq_true, if_true]
        calc ((rest.dropWhile (fun c => c == '/')).reverse).length
            = (rest.dropWhile (fun c => c == '/')).length := List.length_reverse _
          _ ≤ rest.length := (List.dropWhile_sublist _).length_le
          _ < rest.length + 1 := Nat.lt_succ_self _
          _ = h.length := hlen.symm
  · -- slash-free suffix nonempty: the head part is strictly shorter
    right
    have hlen : h.reverse.length =
        (h.reverse.takeWhile (fun c => !(c == '/'))).length +
        (h.reverse.dropWhile (fun c => !(c == '/'))).length := by
      conv_lhs => rw [← hsplit]
      rw [List.length_append]
    have htpos : 0 < (h.reverse.takeWhile (fun c => !(c == '/'))).length :=
      List.length_pos.mpr htw
    have hrevlen : h.reverse.length = h.length := List.length_reverse _
    have hdlt : (h.reverse.dropWhile (fun c => !(c == '/'))).length < h.length := by
      omega
    by_cases hall : (h.reverse.dropWhile (fun c => !(c == '/'))).all (fun c => c == '/')
    · simp only [hall, if_true]
      calc ((h.reverse.dropWhile (fun c => !(c == '/'))).reverse).length
          = (h.reverse.dropWhile (fun c => !(c == '/'))).length := List.length_reverse _
        _ < h.length := hdlt
    · simp only [hall, if_false]
      calc (((h.reverse.dropWhile (fun c => !(c == '/'))).dropWhile
              (fun c => c == '/')).reverse).length
          = ((h.reverse.dropWhile (fun c => !(c == '/'))).dropWhile
              (fun c => c == '/')).length := List.length_reverse _
        _ ≤ (h.reverse.dropWhile (fun c => !(c == '/'))).length :=
            (List.dropWhile_sublist _).length_le
        _ < h.length := hdlt

theorem collect_stall (l : Bool) (R h : Str) (hs : (splitPy h).1 = h)
    (hne : h ≠ R) :
    ∀ (n : Nat) (acc : List Str), collect l R n h acc = none := by
  intro n
  induction n with
  | zero => intro acc; rfl
  | succ k ih =>
    intro acc
    rw [collect]
    simp only [hne, if_false]
    rw [hs]
    exact ih _

theorem collect_defaultFuel_complete (l : Bool) (R : Str) :
    ∀ (n : Nat) (h : Str) (acc r : List Str),
      collect l R n h acc = some r →
      collect l R (h.length + 1) h acc = some r := by
  intro n
  induction n with
  | zero => intro h acc r hc; simp [collect] at hc
  | succ k ih =>
    intro h acc r hc
    rw [collect] at hc
    by_cases he : h = R
    · rw [collect]; simpa [he] using hc
    · simp only [he, if_false] at hc
      rcases splitPy_shrink h with hs | hlt
      · rw [hs, collect_stall l R h hs he k _] at hc
        exact Option.noConfusion hc
      · have h1 := ih (splitPy h).1 _ r hc
        have h2 : (splitPy h).1.length + 1 ≤ h.length :=
          Nat.succ_le_of_lt hlt
        rw [collect]
        simp only [he, if_false]
        exact collect_mono l R _ _ _ _ r h2 h1

/-! ### Round-tripping of the rename rule -/

theorem rename_roundtrip (l : Bool) (name : Str)
    (h : (newPref l).isPrefixOf name = false ∨ (oldPref l).isPrefixOf name = true) :
    change_prefix (oldPref (!l)) (newPref (!l))
      ( change_prefix (oldPref l) (newPref l) name) = name := by
  have e1 : oldPref (!l) = newPref l := by cases l <;> rfl
  have e2 : newPref (!l) = oldPref l := by cases l <;> rfl
  rw [e1, e2]
  by_cases hp : (oldPref l).isPrefixOf name = true
  · obtain ⟨t, ht⟩ := List.isPrefixOf_iff_prefix.mp hp
    subst ht
    have h1 : (oldPref l).isPrefixOf (oldPref l ++ t) = true := by
      simp [List.isPrefixOf_iff_prefix]
    have h2 : (newPref l).isPrefixOf (newPref l ++ t) = true := by
      simp [List.isPrefixOf_iff_prefix]
    simp only [ change_prefix, h1, if_true, List.drop_left, h2]
  · cases h with
    | inl hn =>
      have hp' : (oldPref l).isPrefixOf name = false := by
        rw [← Bool.not_eq_true]
        exact hp
      simp only [ change_prefix, hp', Bool.false_eq_true, if_false, hn]
    | inr ho => exact absurd ho hp

/-- Claim C3: for every single-segment name and either rename direction,
applying the direction and then its inverse yields the name back, provided
the name does not already start with the direction's new prefix; in
particular (second disjunct of the hypothesis) a name starting with the
direction's old prefix always round-trips.  The inverse of direction `l`
is `!l`, which swaps the prefix pair (temman.py:288-293, 330-340). -/
theorem C3_rename_round_trip (l : Bool) (name : Str)
    (h : (newPref l).isPrefixOf name = false ∨ (oldPref l).isPrefixOf name = true) :
    change_prefix (oldPref (!l)) (newPref (!l))
      ( change_prefix (oldPref l) (newPref l) name) = name :=
  rename_roundtrip l name h

/-- Witness for C3 at direction `lengthen_dots = true` and name ".cfg". -/
theorem C3_rename_round_trip_witness :
    change_prefix (oldPref (!true)) (newPref (!true))
      ( change_prefix (oldPref true) (newPref true) ".cfg".data) = ".cfg".data :=
  C3_rename_round_trip true (".cfg".data) (Or.inr (by decide))

/-- Claim C1, evaluation at the failing input: for the internal link with
resolved target `/s/sub/b.txt` at depth 2 under master source root `/s`,
the code (temman.py:319, `str.join("", reversed(new_subpath))`) produces
destination target `/d/subb.txt` — the renamed segments concatenated with
the empty string — rather than the analogous depth-2 path `/d/sub/b.txt`
required by the claim. -/
theorem C1_depth2_link_concatenates_segments :
    symlink_new_target true "/s".data "/d".data "/s/sub/b.txt".data
      = some ("/d/subb.txt".data) ∧
    ("/d/subb.txt".data : Str) ≠ "/d/sub/b.txt".data := by
  decide

/-- Claim C5: an internal symbolic link whose resolved target is exactly the
master source root collects zero segments, and the computed destination
target is `os.path.join(output_master_dir, "")` — the output master root
with a trailing slash — which names the master destination root itself
(equal up to trailing slashes). -/
theorem C5_link_to_master_root (l : Bool) (masterR outMaster : Str) :
    symlink_new_target l masterR outMaster masterR = some (pyJoin outMaster []) ∧
    stripSlashes (pyJoin outMaster []) = stripSlashes outMaster := by
  constructor
  · unfold symlink_new_target
    have hp : masterR.isPrefixOf masterR = true := by
      simp [List.isPrefixOf_iff_prefix]
    rw [if_pos hp]
    unfold defaultFuel
    rw [collect, if_pos rfl]
    rfl
  · unfold pyJoin
    rw [if_neg (by simp)]
    by_cases h0 : outMaster = []
    · simp [h0]
    · rw [if_neg h0]
      by_cases hl : outMaster.getLast? = some '/'
      · rw [if_pos hl, List.append_nil]
      · rw [if_neg hl]
        unfold stripSlashes
        rw [List.reverse_append]
        simp [List.dropWhile_cons]

/-- Claim C10, counterexample: with resolved source root `/t/tpl` and link
target `/t/tpl2/f` (outside the tree but a string-extension of the root),
the link IS classified internal (plain `startswith`, no separator check,
temman.py:310), but no retargeted link is produced: the collection loop
never reaches `/t/tpl` walking up from `/t/tpl2/f`, so the model returns
`none` (the Python loop does not terminate).  This refutes the claim's
"and retargeted under the destination root" part. -/
theorem C10_prefix_misclassification :
    ("/t/tpl".data).isPrefixOf "/t/tpl2/f".data = true ∧
    symlink_new_target true "/t/tpl".data "/d".data "/t/tpl2/f".data = none := by
  decide

/-- Claim C10 amended: the internal/external classification is a plain
string prefix test; for source root `/t/tpl` and resolved target
`/t/tpl2/f` the link is classified internal, and the retargeting walk then
diverges — for EVERY fuel bound and accumulator the collection loop fails
to terminate (it walks `/t/tpl2`, `/t`, `/` and then stays at `/` forever),
so no destination link is ever created. -/
theorem C10_amended_internal_classification_diverges :
    ∀ (fuel : Nat) (acc : List Str),
      ("/t/tpl".data).isPrefixOf "/t/tpl2/f".data = true ∧
      collect true "/t/tpl".data fuel "/t/tpl2/f".data acc = none := by
  intro fuel acc
  refine ⟨by decide, ?_⟩
  rcases fuel with _ | _ | _ | _ | n
  · rfl
  · rfl
  · rfl
  · rfl
  · have s1 : (splitPy ("/t/tpl2/f".data)).1 = "/t/tpl2".data := by decide
    have s2 : (splitPy ("/t/tpl2".data)).1 = "/t".data := by decide
    have s3 : (splitPy ("/t".data)).1 = ['/'] := by decide
    rw [collect, if_neg (by decide), s1]
    rw [collect, if_neg (by decide), s2]
    rw [collect, if_neg (by decide), s3]
    exact collect_stall true _ ['/'] (by decide) (by decide) (n+1) _

/-! ### The source tree model

A directory tree as `__copy_dir_rec` observes it through `os.scandir`:
an entry is a regular file (with its byte content), a symbolic link
(carrying `os.path.realpath(entry.path)`, the resolved absolute target the
code computes, and `entry.is_dir()`, which follows the link), or a regular
directory with a list of named entries. -/

mutual
inductive FsTree : Type where
  | file (content : Str) : FsTree
  | symlink (absTarget : Str) (isDir : Bool) : FsTree
  | dir (entries : FsEntries) : FsTree
  deriving DecidableEq
inductive FsEntries : Type where
  | nil : FsEntries
  | cons (name : Str) (tree : FsTree) (rest : FsEntries) : FsEntries
  deriving DecidableEq
end

mutual
/-- The destination tree produced by `__copy_dir_rec` (temman.py:278-328)
viewed as a tree transformation: every entry name is renamed by
`change_prefix(old_prefix, new_prefix, ...)` (temman.py:297), file content
is copied unchanged (temman.py:307), symbolic links get the retargeting of
temman.py:309-322.  `none` models the non-terminating collection loop on a
pathological internal link. -/
def copy_tree (l : Bool) (masterR outMaster : Str) : FsTree → Option FsTree
  | .file c => some (.file c)
  | .symlink t d =>
    (symlink_new_target l masterR outMaster t).map (fun nt => .symlink nt d)
  | .dir es => (copy_entries l masterR outMaster es).map .dir
def copy_entries (l : Bool) (masterR outMaster : Str) : FsEntries → Option FsEntries
  | .nil => some .nil
  | .cons n t r =>
    match copy_tree l masterR outMaster t, copy_entries l masterR outMaster r with
    | some t', some r' => some (.cons (rename1 l n) t' r')
    | _, _ => none
end

mutual
/-- No symbolic link anywhere in the tree. -/
def noLinks : FsTree → Bool
  | .file _ => true
  | .symlink _ _ => false
  | .dir es => noLinksE es
def noLinksE : FsEntries → Bool
  | .nil => true
  | .cons _ t r => noLinks t && noLinksE r
end

mutual
/-- No entry name anywhere in the tree already starts with the new prefix
of direction `l` (the non-invertibility edge case of the rename rule). -/
def namesOk (l : Bool) : FsTree → Bool
  | .file _ => true
  | .symlink _ _ => true
  | .dir es => namesOkE l es
def namesOkE (l : Bool) : FsEntries → Bool
  | .nil => true
  | .cons n t r => (!(newPref l).isPrefixOf n) && namesOk l t && namesOkE l r
end

mutual
theorem copy_tree_roundtrip (l : Bool) (mr om mr2 om2 : Str) (t : FsTree)
    (hnl : noLinks t = true) (hok : namesOk l t = true) :
    ∃ t1, copy_tree l mr om t = some t1 ∧ copy_tree (!l) mr2 om2 t1 = some t := by
  cases t with
  | file c => exact ⟨.file c, rfl, rfl⟩
  | symlink tgt d => exact absurd hnl (by simp [noLinks])
  | dir es =>
    obtain ⟨es1, h1, h2⟩ := copy_entries_roundtrip l mr om mr2 om2 es
      (by simpa [noLinks] using hnl) (by simpa [namesOk] using hok)
    exact ⟨.dir es1, by simp [copy_tree, h1], by simp [copy_tree, h2]⟩
theorem copy_entries_roundtrip (l : Bool) (mr om mr2 om2 : Str) (es : FsEntries)
    (hnl : noLinksE es = true) (hok : namesOkE l es = true) :
    ∃ es1, copy_entries l mr om es = some es1 ∧
      copy_entries (!l) mr2 om2 es1 = some es := by
  cases es with
  | nil => exact ⟨.nil, rfl, rfl⟩
  | cons n t r =>
    rw [noLinksE, Bool.and_eq_true] at hnl
    rw [namesOkE, Bool.and_eq_true, Bool.and_eq_true] at hok
    obtain ⟨t1, ht1, ht2⟩ := copy_tree_roundtrip l mr om mr2 om2 t hnl.1 hok.1.2
    obtain ⟨r1, hr1, hr2⟩ := copy_entries_roundtrip l mr om mr2 om2 r hnl.2 hok.2
    refine ⟨.cons (rename1 l n) t1 r1, ?_, ?_⟩
    · rw [copy_entries, ht1, hr1]
    · rw [copy_entries, ht2, hr2]
      have hren : rename1 (!l) (rename1 l n) = n :=
        rename_roundtrip l n (Or.inl (by
          have hb := hok.1.1
          rw [Bool.not_eq_true'] at hb
          exact hb))
      rw [hren]
end

/-- Claim C2, counterexample: the tree with the single file entry `DOT_x`
contains no symbolic links, yet replicating with direction
`lengthen_dots = true` and then with the inverse direction yields the tree
with entry `.x`, not the original: names that already carry the reserved
marker are not restored.  So the claim without a proviso on names is false
on the code. -/
theorem C2_marker_name_not_restored :
    noLinks (FsTree.dir (.cons "DOT_x".data (.file "c".data) .nil)) = true ∧
    (copy_tree true "/s".data "/d".data
        (FsTree.dir (.cons "DOT_x".data (.file "c".data) .nil))).bind
      (copy_tree false "/s".data "/d".data)
      = some (FsTree.dir (.cons ".x".data (.file "c".data) .nil)) ∧
    (FsTree.dir (.cons ".x".data (.file "c".data) .nil))
      ≠ (FsTree.dir (.cons "DOT_x".data (.file "c".data) .nil)) := by
  decide

/-- Claim C2 amended: for every source tree with no symbolic links in which
no entry name already starts with the first direction's new prefix, running
the copy with direction `l` and then with the inverse direction `!l`
reproduces the original tree exactly (same shape, same file contents, all
names restored), for any master roots. -/
theorem C2_copy_round_trip (l : Bool) (mr om mr2 om2 : Str) (t : FsTree)
    (hnl : noLinks t = true) (hok : namesOk l t = true) :
    ∃ t1, copy_tree l mr om t = some t1 ∧ copy_tree (!l) mr2 om2 t1 = some t :=
  copy_tree_roundtrip l mr om mr2 om2 t hnl hok

/-- Witness for C2 on the tree with the entries `a.txt` and `.cfg`,
direction `lengthen_dots = true`. -/
theorem C2_copy_round_trip_witness :
    ∃ t1, copy_tree true "/s".data "/d".data
        (FsTree.dir (.cons "a.txt".data (.file "A".data)
          (.cons ".cfg".data (.file "B".data) .nil))) = some t1 ∧
      copy_tree (!true) "/s2".data "/d2".data t1
        = some (FsTree.dir (.cons "a.txt".data (.file "A".data)
          (.cons ".cfg".data (.file "B".data) .nil))) :=
  C2_copy_round_trip true "/s".data "/d".data "/s2".data "/d2".data _
    (by decide) (by decide)

/-! ### The effectful copy: filesystem state and operation trace

`FS` is the destination-side filesystem state: existing directories, files
(with content) and symbolic links, each keyed by absolute path.  `Ev`
records, in execution order, every progress print and every mutating
filesystem call the engine makes.  `os.makedirs` and `os.symlink` raise
`FileExistsError` when their target path already exists; `shutil.copyfile`
overwrites.  The engine is `__copy_dir_rec` below, a direct translation of
temman.py:278-328 threading the state. -/

structure FS : Type where
  dirs : List Str
  files : List (Str × Str)
  links : List (Str × Str × Bool)
  deriving DecidableEq

def emptyFS : FS := ⟨[], [], []⟩

/-- Every path that `os.path.exists` would report on this state. -/
def FS.allPaths (fs : FS) : List Str :=
  fs.dirs ++ fs.files.map Prod.fst ++ fs.links.map (fun x => x.1)

/-- Model of `os.path.exists`. -/
def FS.pathExists (fs : FS) (p : Str) : Bool := fs.allPaths.contains p

inductive Ev : Type where
  | printMakingDir (outputDir : Str)
  | printNewDir (inputPath : Str)
  | printCopy (message : Str)
  | mkdir (p : Str)
  | copyFile (src dst : Str)
  | mklink (target dst : Str) (isDir : Bool)
  deriving DecidableEq

inductive Err : Type where
  | dirExists (p : Str)
  | linkExists (p : Str)
  | hang (absTarget : Str)
  deriving DecidableEq

/-- Model of `os.makedirs p`: `FileExistsError` when `p` exists. -/
def os_makedirs (fs : FS) (p : Str) : Except Err FS :=
  if fs.pathExists p then .error (.dirExists p)
  else .ok { fs with dirs := p :: fs.dirs }

/-- Model of `os.symlink(src=target, dst=dst)`: `FileExistsError` when
`dst` exists. -/
def os_symlink (fs : FS) (target dst : Str) (isDir : Bool) : Except Err FS :=
  if fs.pathExists dst then .error (.linkExists dst)
  else .ok { fs with links := (dst, target, isDir) :: fs.links }

def upsertFile : List (Str × Str) → Str → Str → List (Str × Str)
  | [], p, c => [(p, c)]
  | (q, d) :: r, p, c => if q = p then (p, c) :: r else (q, d) :: upsertFile r p c

/-- Model of `shutil.copyfile(entry.path, new_path)`: overwrite or create. -/
def FS.writeFile (fs : FS) (p c : Str) : FS :=
  { fs with files := upsertFile fs.files p c }

def MAX_PATH_PRINT_LEN : Nat := 50

/-- The elision applied by `print_copy_file` (temman.py:347-355): paths
longer than `MAX_PATH_PRINT_LEN` are shown as "..." plus the suffix
`p[-MAX_PATH_PRINT_LEN - 3:]`. -/
def elide (p : Str) : Str :=
  if p.length > MAX_PATH_PRINT_LEN then
    "...".data ++ p.drop (p.length - (MAX_PATH_PRINT_LEN + 3))
  else p

/-- The message built by `print_copy_file` (temman.py:342-357). -/
def print_copy_file (inp outp : Str) (note : Option Str) : Str :=
  (match note with
   | some n => n ++ "\n".data
   | none => ([] : Str)) ++
  "Original:\n\t".data ++ elide inp ++ "\nNew copy:\n\t".data ++
  elide outp ++ "\n".data

/-- The `for entry in it:` loop of `__copy_dir_rec` (temman.py:295-328),
one iteration per entry, in listing order.  `inpMasterR` is the resolved
master source root (the code recomputes `os.path.realpath(inp_master_dir)`
at each use; the model takes the resolved value).  In the regular-directory
case the Python code recurses into `__copy_dir_rec`; that call is unfolded
once here (the "ensure the output directory exists" prologue,
temman.py:283-286, followed by the loop over the child entries), so that
the whole definition is structurally recursive over the entry list. -/
def processEntries (inpMasterR inputDir outMaster outputDir : Str)
    (l : Bool) : FsEntries → FS → Except Err (FS × List Ev)
  | .nil, fs => .ok (fs, [])
  | .cons name t rest, fs =>
    let entryPath := pyJoin inputDir name
    let newPath := pyJoin outputDir (rename1 l name)
    match t with
    | .dir sub =>
      let res :=
        if fs.pathExists newPath then
          processEntries inpMasterR entryPath outMaster newPath l sub fs
        else
          match os_makedirs fs newPath with
          | .error e => .error e
          | .ok fsA =>
            match processEntries inpMasterR entryPath outMaster newPath l sub fsA with
            | .error e => .error e
            | .ok (fsB, trB) =>
              .ok (fsB, Ev.printMakingDir newPath :: Ev.mkdir newPath :: trB)
      match res with
      | .error e => .error e
      | .ok (fs1, tr1) =>
        match processEntries inpMasterR inputDir outMaster outputDir l rest fs1 with
        | .error e => .error e
        | .ok (fs2, tr2) =>
          .ok (fs2, Ev.printNewDir entryPath :: (tr1 ++ tr2))
    | .file c =>
      let fs1 := fs.writeFile newPath c
      match processEntries inpMasterR inputDir outMaster outputDir l rest fs1 with
      | .error e => .error e
      | .ok (fs2, tr2) =>
        .ok (fs2, Ev.printCopy ( print_copy_file entryPath newPath
              (some "Regular file".data))
              :: Ev.copyFile entryPath newPath :: tr2)
    | .symlink absTarget isDir =>
      if inpMasterR.isPrefixOf absTarget then
        match collect l inpMasterR (defaultFuel absTarget) absTarget [] with
        | none => .error (.hang absTarget)
        | some segs =>
          let newTarget := pyJoin outMaster (List.flatten segs.reverse)
          match os_symlink fs newTarget newPath isDir with
          | .error e => .error e
          | .ok fs1 =>
            match processEntries inpMasterR inputDir outMaster outputDir l rest fs1 with
            | .error e => .error e
            | .ok (fs2, tr2) =>
              .ok (fs2, Ev.mklink newTarget newPath isDir :: tr2)
      else
        let newTarget := absTarget
        match os_symlink fs newTarget newPath isDir with
        | .error e => .error e
        | .ok fs1 =>
          match processEntries inpMasterR inputDir outMaster outputDir l rest fs1 with
          | .error e => .error e
          | .ok (fs2, tr2) =>
            .ok (fs2, Ev.printCopy ( print_copy_file entryPath newPath
                  (some ("Symlink with old target:\n\t".data ++ absTarget
                    ++ "\nAnd new target:\n\t".data ++ newTarget)))
                  :: Ev.mklink newTarget newPath isDir :: tr2)

/-- Translation of `__copy_dir_rec` (temman.py:278-328): ensure the output
directory exists (creating it with a "Making directory" print when it does
not, temman.py:283-286), then run the entry loop. -/
def __copy_dir_rec (inpMasterR inputDir outMaster outputDir : Str)
    (l : Bool) (entries : FsEntries) (fs : FS) :
    Except Err (FS × List Ev) :=
  if fs.pathExists outputDir then
    processEntries inpMasterR inputDir outMaster outputDir l entries fs
  else
    match os_makedirs fs outputDir with
    | .error e => .error e
    | .ok fs1 =>
      match processEntries inpMasterR inputDir outMaster outputDir l entries fs1 with
      | .error e => .error e
      | .ok (fs2, tr) =>
        .ok (fs2, Ev.printMakingDir outputDir :: Ev.mkdir outputDir :: tr)

/-- Translation of `copy_dir` (temman.py:263-276): start the recursion with
the input and output directories as their own master roots. -/
def copy_dir (inputDir outputDir : Str) (l : Bool) (entries : FsEntries)
    (fs : FS) : Except Err (FS × List Ev) :=
  __copy_dir_rec inputDir inputDir outputDir outputDir l entries fs

/-- Claim C6, evaluation at the failing input: copying a tree whose only
entry is the internal symbolic link `link1` (resolved target `/s/.cfg`)
produces a trace with NO `printCopy` event at all: the
`print_copy_file` call for symlinks sits inside the external-target `else`
branch (temman.py:322-326), so an internal link is copied silently.  The
full result is computed: one directory creation (with its print), then the
symlink creation with no print. -/
theorem C6_internal_link_prints_no_line :
    copy_dir "/s".data "/d".data true
        (.cons "link1".data (.symlink "/s/.cfg".data false) .nil) emptyFS
      = .ok (⟨["/d".data], [],
             [("/d/link1".data, "/d/DOT_cfg".data, false)]⟩,
          [Ev.printMakingDir "/d".data, Ev.mkdir "/d".data,
           Ev.mklink "/d/DOT_cfg".data "/d/link1".data false]) := by
  rfl

/-- Claim C7, counterexample: the source directory has TWO file entries,
`.a` (content X) and `DOT_a` (content Y); with direction
`lengthen_dots = true` both rename to `DOT_a`, so the destination ends up
with ONE file (the second overwrites the first).  Entries do not map 1:1
to destination entries when renamed sibling names collide. -/
theorem C7_sibling_collision_loses_entry :
    (copy_dir "/s".data "/d".data true
        (.cons ".a".data (.file "X".data)
          (.cons "DOT_a".data (.file "Y".data) .nil)) emptyFS).map
      (fun r => (r.1.files.length, r.1.files))
      = .ok (1, [("/d/DOT_a".data, "Y".data)]) := by
  rfl

/-! ### One creation operation per entry (claim C7) -/

/-- The mutating action (file copy or link creation) events of a trace. -/
def isActionEv : Ev → Bool
  | .copyFile _ _ => true
  | .mklink _ _ _ => true
  | _ => false

def actionEvs (tr : List Ev) : List Ev := tr.filter isActionEv

/-- The list of creation operations `__copy_dir_rec` performs for a given
subtree, read off the source tree structurally: exactly one `copyFile` per
file entry and one `mklink` per symlink entry, at the destination path
obtained by renaming every path segment with the rename rule, in
depth-first listing order; directory entries contribute the operations of
their children.  `none` when some internal link makes the collection loop
diverge. -/
def plannedActs (inpMasterR inputDir outMaster outputDir : Str) (l : Bool) :
    FsEntries → Option (List Ev)
  | .nil => some []
  | .cons name t rest =>
    let entryPath := pyJoin inputDir name
    let newPath := pyJoin outputDir (rename1 l name)
    match t with
    | .dir sub =>
      match plannedActs inpMasterR entryPath outMaster newPath l sub,
            plannedActs inpMasterR inputDir outMaster outputDir l rest with
      | some a, some b => some (a ++ b)
      | _, _ => none
    | .file _ =>
      (plannedActs inpMasterR inputDir outMaster outputDir l rest).map
        (fun b => Ev.copyFile entryPath newPath :: b)
    | .symlink absTarget isDir =>
      match symlink_new_target l inpMasterR outMaster absTarget with
      | none => none
      | some nt =>
        (plannedActs inpMasterR inputDir outMaster outputDir l rest).map
          (fun b => Ev.mklink nt newPath isDir :: b)

theorem okPair {α β : Type} {a c : α} {b d : β}
    (h : (Except.ok (a, b) : Except Err (α × β)) = .ok (c, d)) :
    a = c ∧ b = d := by
  injection h with h1
  exact ⟨congrArg Prod.fst h1, congrArg Prod.snd h1⟩

theorem processEntries_plannedActs (R dIn om od : Str) (l : Bool)
    (es : FsEntries) (fs fs' : FS) (tr : List Ev)
    (h : processEntries R dIn om od l es fs = .ok (fs', tr)) :
    plannedActs R dIn om od l es = some (actionEvs tr) := by
  match es with
  | .nil =>
    rw [processEntries] at h
    obtain ⟨rfl, rfl⟩ := okPair h
    rfl
  | .cons name (FsTree.file c) rest =>
    rw [processEntries] at h
    simp only at h
    cases hrest : processEntries R dIn om od l rest
        (fs.writeFile (pyJoin od (rename1 l name)) c) with
    | error e => rw [hrest] at h; exact Except.noConfusion h
    | ok p =>
      obtain ⟨fs2, tr2⟩ := p
      rw [hrest] at h
      obtain ⟨rfl, rfl⟩ := okPair h
      have ih := processEntries_plannedActs R dIn om od l rest _ fs2 tr2 hrest
      rw [plannedActs]
      simp only [ih, Option.map_some]
      simp [actionEvs, List.filter, isActionEv]
  | .cons name (FsTree.symlink absTarget isDir) rest =>
    rw [processEntries] at h
    simp only at h
    by_cases hint : R.isPrefixOf absTarget = true
    · rw [if_pos hint] at h
      cases hcol : collect l R (defaultFuel absTarget) absTarget [] with
      | none => rw [hcol] at h; exact Except.noConfusion h
      | some segs =>
        rw [hcol] at h
        simp only at h
        cases hsym : os_symlink fs (pyJoin om (List.flatten segs.reverse))
            (pyJoin od (rename1 l name)) isDir with
        | error e => rw [hsym] at h; exact Except.noConfusion h
        | ok fs1 =>
          rw [hsym] at h
          simp only at h
          cases hrest : processEntries R dIn om od l rest fs1 with
          | error e => rw [hrest] at h; exact Except.noConfusion h
          | ok p =>
            obtain ⟨fs2, tr2⟩ := p
            rw [hrest] at h
            obtain ⟨rfl, rfl⟩ := okPair h
            have ih := processEntries_plannedActs R dIn om od l rest fs1 fs2 tr2 hrest
            rw [plannedActs]
            rw [symlink_new_target, if_pos hint, hcol]
            simp only [Option.map_some, ih]
            simp [actionEvs, List.filter, isActionEv]
    · have hint' : R.isPrefixOf absTarget = false := by
        rw [← Bool.not_eq_true]; exact hint
      rw [if_neg (by rw [hint']; exact Bool.false_ne_true)] at h
      cases hsym : os_symlink fs absTarget (pyJoin od (rename1 l name)) isDir with
      | error e => rw [hsym] at h; exact Except.noConfusion h
      | ok fs1 =>
        rw [hsym] at h
        simp only at h
        cases hrest : processEntries R dIn om od l rest fs1 with
        | error e => rw [hrest] at h; exact Except.noConfusion h
        | ok p =>
          obtain ⟨fs2, tr2⟩ := p
          rw [hrest] at h
          obtain ⟨rfl, rfl⟩ := okPair h
          have ih := processEntries_plannedActs R dIn om od l rest fs1 fs2 tr2 hrest
          rw [plannedActs]
          rw [symlink_new_target, if_neg (by rw [hint']; exact Bool.false_ne_true)]
          simp only [Option.map_some, ih]
          simp [actionEvs, List.filter, isActionEv]
  | .cons name (FsTree.dir sub) rest =>
    rw [processEntries] at h
    set np := pyJoin od (rename1 l name) with hnp
    by_cases hex : fs.pathExists np = true
    · rw [if_pos hex] at h
      cases hsub : processEntries R (pyJoin dIn name) om np l sub fs with
      | error e => rw [hsub] at h; exact Except.noConfusion h
      | ok p =>
        obtain ⟨fs1, tr1⟩ := p
        rw [hsub] at h
        simp only at h
        cases hrest : processEntries R dIn om od l rest fs1 with
        | error e => rw [hrest] at h; exact Except.noConfusion h
        | ok q =>
          obtain ⟨fs2, tr2⟩ := q
          rw [hrest] at h
          obtain ⟨rfl, rfl⟩ := okPair h
          have ih1 := processEntries_plannedActs R (pyJoin dIn name) om np l sub fs fs1 tr1 hsub
          have ih2 := processEntries_plannedActs R dIn om od l rest fs1 fs2 tr2 hrest
          rw [plannedActs]
          simp only [ih1, ih2]
          simp [actionEvs, List.filter, isActionEv, List.filter_append]
    · rw [if_neg hex] at h
      cases hmk : os_makedirs fs np with
      | error e => rw [hmk] at h; exact Except.noConfusion h
      | ok fsA =>
        rw [hmk] at h
        simp only at h
        cases hsub : processEntries R (pyJoin dIn name) om np l sub fsA with
        | error e => rw [hsub] at h; exact Except.noConfusion h
        | ok p =>
          obtain ⟨fsB, trB⟩ := p
          rw [hsub] at h
          simp only at h
          cases hrest : processEntries R dIn om od l rest fsB with
          | error e => rw [hrest] at h; exact Except.noConfusion h
          | ok q =>
            obtain ⟨fs2, tr2⟩ := q
            rw [hrest] at h
            obtain ⟨rfl, rfl⟩ := okPair h
            have ih1 := processEntries_plannedActs R (pyJoin dIn name) om np l sub fsA fsB trB hsub
            have ih2 := processEntries_plannedActs R dIn om od l rest fsB fs2 tr2 hrest
            rw [plannedActs]
            simp only [ih1, ih2]
            simp [actionEvs, List.filter, isActionEv, List.filter_append]

/-- Claim C7 amended: on every successful run, the filesystem operations
`__copy_dir_rec` performs are exactly `plannedActs` of the source tree:
every immediate entry of every source directory is processed (none skipped
on account of its name, marker-pattern names included), each file or
symlink entry yields exactly one creation operation at the destination
path built from its segment-wise renamed name, and directory entries
contribute exactly their children's operations, in listing order.  (When
renamed sibling names collide the operations still happen one per entry,
but a later operation overwrites an earlier destination entry, so the
destination may hold fewer entries — see the collision counterexample.) -/
theorem C7_every_entry_one_operation (R dIn om od : Str) (l : Bool)
    (es : FsEntries) (fs fs' : FS) (tr : List Ev)
    (h : __copy_dir_rec R dIn om od l es fs = .ok (fs', tr)) :
    plannedActs R dIn om od l es = some (actionEvs tr) := by
  rw [__copy_dir_rec] at h
  by_cases hex : fs.pathExists od = true
  · rw [if_pos hex] at h
    exact processEntries_plannedActs R dIn om od l es fs fs' tr h
  · rw [if_neg hex] at h
    cases hmk : os_makedirs fs od with
    | error e => rw [hmk] at h; exact Except.noConfusion h
    | ok fs1 =>
      rw [hmk] at h
      simp only at h
      cases hpe : processEntries R dIn om od l es fs1 with
      | error e => rw [hpe] at h; exact Except.noConfusion h
      | ok p =>
        obtain ⟨fs2, tr2⟩ := p
        rw [hpe] at h
        obtain ⟨rfl, rfl⟩ := okPair h
        have ih := processEntries_plannedActs R dIn om od l es fs1 fs2 tr2 hpe
        rw [ih]
        simp [actionEvs, List.filter, isActionEv]

/-- Witness for C7 on a one-file tree copied into an empty filesystem. -/
theorem C7_every_entry_one_operation_witness :
    plannedActs "/s".data "/s".data "/d".data "/d".data true
      (.cons "a".data (.file "x".data) .nil)
      = some (actionEvs [Ev.printMakingDir "/d".data, Ev.mkdir "/d".data,
          Ev.printCopy ( print_copy_file "/s/a".data "/d/a".data
            (some "Regular file".data)),
          Ev.copyFile "/s/a".data "/d/a".data]) :=
  C7_every_entry_one_operation "/s".data "/s".data "/d".data "/d".data true
    (.cons "a".data (.file "x".data) .nil) emptyFS
    ⟨["/d".data], [("/d/a".data, "x".data)], []⟩ _ (by rfl)

/-! ### Directory creation discipline (claim C8) -/

def isDirExistsErr : Err → Bool
  | .dirExists _ => true
  | _ => false

/-- Paths known to exist after the events of a trace: the initial set plus
every path created (or written) by an event. -/
def knownAfter (known : List Str) : List Ev → List Str
  | [] => known
  | (Ev.mkdir p) :: rest => knownAfter (p :: known) rest
  | (Ev.copyFile _ dst) :: rest => knownAfter (dst :: known) rest
  | (Ev.mklink _ dst _) :: rest => knownAfter (dst :: known) rest
  | _ :: rest => knownAfter known rest

/-- Every write event (file copy or link creation) in the trace targets
`os.path.join` of a directory-path already known at that point — either
pre-existing or put there by an earlier event of the trace. -/
def goodTrace (known : List Str) : List Ev → Prop
  | [] => True
  | (Ev.mkdir p) :: rest => goodTrace (p :: known) rest
  | (Ev.copyFile _ dst) :: rest =>
      (∃ d n, dst = pyJoin d n ∧ d ∈ known) ∧ goodTrace (dst :: known) rest
  | (Ev.mklink _ dst _) :: rest =>
      (∃ d n, dst = pyJoin d n ∧ d ∈ known) ∧ goodTrace (dst :: known) rest
  | _ :: rest => goodTrace known rest

theorem goodTrace_mono : ∀ (tr : List Ev) (K K' : List Str), K ⊆ K' →
    goodTrace K tr → goodTrace K' tr := by
  intro tr
  induction tr with
  | nil => intro K K' _ _; trivial
  | cons ev rest ih =>
    intro K K' hsub hg
    cases ev with
    | mkdir p =>
      exact ih _ _ (List.cons_subset_cons p hsub) hg
    | copyFile s dst =>
      obtain ⟨⟨d, n, hdn, hdK⟩, hg2⟩ := hg
      exact ⟨⟨d, n, hdn, hsub hdK⟩, ih _ _ (List.cons_subset_cons dst hsub) hg2⟩
    | mklink t dst b =>
      obtain ⟨⟨d, n, hdn, hdK⟩, hg2⟩ := hg
      exact ⟨⟨d, n, hdn, hsub hdK⟩, ih _ _ (List.cons_subset_cons dst hsub) hg2⟩
    | printMakingDir p => exact ih _ _ hsub hg
    | printNewDir p => exact ih _ _ hsub hg
    | printCopy m => exact ih _ _ hsub hg

theorem knownAfter_mono : ∀ (tr : List Ev) (K K' : List Str), K ⊆ K' →
    knownAfter K tr ⊆ knownAfter K' tr := by
  intro tr
  induction tr with
  | nil => intro K K' hsub; exact hsub
  | cons ev rest ih =>
    intro K K' hsub
    cases ev with
    | mkdir p => exact ih _ _ (List.cons_subset_cons p hsub)
    | copyFile s dst => exact ih _ _ (List.cons_subset_cons dst hsub)
    | mklink t dst b => exact ih _ _ (List.cons_subset_cons dst hsub)
    | printMakingDir p => exact ih _ _ hsub
    | printNewDir p => exact ih _ _ hsub
    | printCopy m => exact ih _ _ hsub

theorem subset_knownAfter : ∀ (tr : List Ev) (K : List Str), K ⊆ knownAfter K tr := by
  intro tr
  induction tr with
  | nil => intro K; exact fun x hx => hx
  | cons ev rest ih =>
    intro K
    cases ev with
    | mkdir p => exact (List.subset_cons_self p K).trans (ih _)
    | copyFile s dst => exact (List.subset_cons_self dst K).trans (ih _)
    | mklink t dst b => exact (List.subset_cons_self dst K).trans (ih _)
    | printMakingDir p => exact ih _
    | printNewDir p => exact ih _
    | printCopy m => exact ih _

theorem knownAfter_append : ∀ (t1 t2 : List Ev) (K : List Str),
    knownAfter K (t1 ++ t2) = knownAfter (knownAfter K t1) t2 := by
  intro t1
  induction t1 with
  | nil => intro t2 K; rfl
  | cons ev rest ih =>
    intro t2 K
    cases ev with
    | mkdir p => exact ih _ _
    | copyFile s dst => exact ih _ _
    | mklink t dst b => exact ih _ _
    | printMakingDir p => exact ih _ _
    | printNewDir p => exact ih _ _
    | printCopy m => exact ih _ _

theorem goodTrace_append : ∀ (t1 t2 : List Ev) (K : List Str),
    goodTrace K t1 → goodTrace (knownAfter K t1) t2 → goodTrace K (t1 ++ t2) := by
  intro t1
  induction t1 with
  | nil => intro t2 K _ h2; exact h2
  | cons ev rest ih =>
    intro t2 K h1 h2
    cases ev with
    | mkdir p =>
      exact ih _ _ h1 h2
    | copyFile s dst =>
      exact ⟨h1.1, ih _ _ h1.2 h2⟩
    | mklink t dst b =>
      exact ⟨h1.1, ih _ _ h1.2 h2⟩
    | printMakingDir p => exact ih _ _ h1 h2
    | printNewDir p => exact ih _ _ h1 h2
    | printCopy m => exact ih _ _ h1 h2

theorem pathExists_iff (fs : FS) (p : Str) :
    fs.pathExists p = true ↔ p ∈ fs.allPaths := by
  simp [FS.pathExists]

theorem upsertFile_fst_mem : ∀ (files : List (Str × Str)) (p c x : Str),
    x ∈ (upsertFile files p c).map Prod.fst ↔ x = p ∨ x ∈ files.map Prod.fst := by
  intro files
  induction files with
  | nil => intro p c x; simp [upsertFile]
  | cons qd r ih =>
    intro p c x
    obtain ⟨q, d⟩ := qd
    rw [upsertFile]
    by_cases hq : q = p
    · subst hq
      rw [if_pos rfl]
      simp only [List.map_cons, List.mem_cons]
      tauto
    · rw [if_neg hq]
      simp only [List.map_cons, List.mem_cons, ih p c x]
      tauto

theorem writeFile_allPaths_iff (fs : FS) (p c x : Str) :
    x ∈ (fs.writeFile p c).allPaths ↔ x = p ∨ x ∈ fs.allPaths := by
  simp only [FS.writeFile, FS.allPaths, List.mem_append, upsertFile_fst_mem]
  tauto

theorem mkdirs_allPaths_iff (fs : FS) (p x : Str) :
    x ∈ ({ fs with dirs := p :: fs.dirs } : FS).allPaths ↔
      x = p ∨ x ∈ fs.allPaths := by
  simp only [FS.allPaths, List.mem_append, List.mem_cons]
  tauto

theorem link_allPaths_iff (fs : FS) (p t : Str) (b : Bool) (x : Str) :
    x ∈ ({ fs with links := (p, t, b) :: fs.links } : FS).allPaths ↔
      x = p ∨ x ∈ fs.allPaths := by
  simp only [FS.allPaths, List.mem_append, List.map_cons, List.mem_cons]
  tauto

theorem os_makedirs_ok {fs : FS} {p : Str} {fs1 : FS}
    (h : os_makedirs fs p = .ok fs1) :
    fs1 = { fs with dirs := p :: fs.dirs } := by
  unfold os_makedirs at h
  by_cases hex : fs.pathExists p = true
  · rw [if_pos hex] at h; exact Except.noConfusion h
  · rw [if_neg hex] at h; injection h with h1; exact h1.symm

theorem os_makedirs_err {fs : FS} {p : Str} {e : Err}
    (h : os_makedirs fs p = .error e) : e = .dirExists p := by
  unfold os_makedirs at h
  by_cases hex : fs.pathExists p = true
  · rw [if_pos hex] at h; injection h with h1; exact h1.symm
  · rw [if_neg hex] at h; exact Except.noConfusion h

theorem os_symlink_ok {fs : FS} {t d : Str} {b : Bool} {fs1 : FS}
    (h : os_symlink fs t d b = .ok fs1) :
    fs1 = { fs with links := (d, t, b) :: fs.links } := by
  unfold os_symlink at h
  by_cases hex : fs.pathExists d = true
  · rw [if_pos hex] at h; exact Except.noConfusion h
  · rw [if_neg hex] at h; injection h with h1; exact h1.symm

theorem os_symlink_err {fs : FS} {t d : Str} {b : Bool} {e : Err}
    (h : os_symlink fs t d b = .error e) : e = .linkExists d := by
  unfold os_symlink at h
  by_cases hex : fs.pathExists d = true
  · rw [if_pos hex] at h; injection h with h1; exact h1.symm
  · rw [if_neg hex] at h; exact Except.noConfusion h

theorem processEntries_no_dirExists (R dIn om od : Str) (l : Bool)
    (es : FsEntries) (fs : FS) (e : Err)
    (h : processEntries R dIn om od l es fs = .error e) :
    isDirExistsErr e = false := by
  match es with
  | .nil => rw [processEntries] at h; exact Except.noConfusion h
  | .cons name (FsTree.file c) rest =>
    rw [processEntries] at h
    simp only at h
    cases hrest : processEntries R dIn om od l rest
        (fs.writeFile (pyJoin od (rename1 l name)) c) with
    | error e2 =>
      rw [hrest] at h
      injection h with h1
      subst h1
      exact processEntries_no_dirExists R dIn om od l rest _ _ hrest
    | ok p => obtain ⟨fs2, tr2⟩ := p; rw [hrest] at h; exact Except.noConfusion h
  | .cons name (FsTree.symlink absTarget isDir) rest =>
    rw [processEntries] at h
    simp only at h
    by_cases hint : R.isPrefixOf absTarget = true
    · rw [if_pos hint] at h
      cases hcol : collect l R (defaultFuel absTarget) absTarget [] with
      | none =>
        rw [hcol] at h
        injection h with h1
        subst h1
        rfl
      | some segs =>
        rw [hcol] at h
        simp only at h
        cases hsym : os_symlink fs (pyJoin om (List.flatten segs.reverse))
            (pyJoin od (rename1 l name)) isDir with
        | error e2 =>
          rw [hsym] at h
          injection h with h1
          subst h1
          rw [os_symlink_err hsym]
          rfl
        | ok fs1 =>
          rw [hsym] at h
          simp only at h
          cases hrest : processEntries R dIn om od l rest fs1 with
          | error e2 =>
            rw [hrest] at h
            injection h with h1
            subst h1
            exact processEntries_no_dirExists R dIn om od l rest _ _ hrest
          | ok p => obtain ⟨fs2, tr2⟩ := p; rw [hrest] at h; exact Except.noConfusion h
    · rw [if_neg hint] at h
      cases hsym : os_symlink fs absTarget (pyJoin od (rename1 l name)) isDir with
      | error e2 =>
        rw [hsym] at h
        injection h with h1
        subst h1
        rw [os_symlink_err hsym]
        rfl
      | ok fs1 =>
        rw [hsym] at h
        simp only at h
        cases hrest : processEntries R dIn om od l rest fs1 with
        | error e2 =>
          rw [hrest] at h
          injection h with h1
          subst h1
          exact processEntries_no_dirExists R dIn om od l rest _ _ hrest
        | ok p => obtain ⟨fs2, tr2⟩ := p; rw [hrest] at h; exact Except.noConfusion h
  | .cons name (FsTree.dir sub) rest =>
    rw [processEntries] at h
    set np := pyJoin od (rename1 l name) with hnp
    by_cases hex : fs.pathExists np = true
    · rw [if_pos hex] at h
      cases hsub : processEntries R (pyJoin dIn name) om np l sub fs with
      | error e2 =>
        rw [hsub] at h
        injection h with h1
        subst h1
        exact processEntries_no_dirExists R (pyJoin dIn name) om np l sub _ _ hsub
      | ok p =>
        obtain ⟨fs1, tr1⟩ := p
        rw [hsub] at h
        simp only at h
        cases hrest : processEntries R dIn om od l rest fs1 with
        | error e2 =>
          rw [hrest] at h
          injection h with h1
          subst h1
          exact processEntries_no_dirExists R dIn om od l rest _ _ hrest
        | ok q => obtain ⟨fs2, tr2⟩ := q; rw [hrest] at h; exact Except.noConfusion h
    · rw [if_neg hex] at h
      have hex' : fs.pathExists np = false := by
        rw [← Bool.not_eq_true]; exact hex
      have hmk : os_makedirs fs np = .ok { fs with dirs := np :: fs.dirs } := by
        unfold os_makedirs
        rw [if_neg (by rw [hex']; exact Bool.false_ne_true)]
      rw [hmk] at h
      simp only at h
      cases hsub : processEntries R (pyJoin dIn name) om np l sub
          { fs with dirs := np :: fs.dirs } with
      | error e2 =>
        rw [hsub] at h
        injection h with h1
        subst h1
        exact processEntries_no_dirExists R (pyJoin dIn name) om np l sub _ _ hsub
      | ok p =>
        obtain ⟨fsB, trB⟩ := p
        rw [hsub] at h
        simp only at h
        cases hrest : processEntries R dIn om od l rest fsB with
        | error e2 =>
          rw [hrest] at h
          injection h with h1
          subst h1
          exact processEntries_no_dirExists R dIn om od l rest _ _ hrest
        | ok q => obtain ⟨fs2, tr2⟩ := q; rw [hrest] at h; exact Except.noConfusion h

theorem processEntries_goodTrace (R dIn om od : Str) (l : Bool)
    (es : FsEntries) (fs fs' : FS) (tr : List Ev)
    (hod : od ∈ fs.allPaths)
    (h : processEntries R dIn om od l es fs = .ok (fs', tr)) :
    goodTrace fs.allPaths tr ∧ fs.allPaths ⊆ fs'.allPaths ∧
      fs'.allPaths ⊆ knownAfter fs.allPaths tr := by
  match es with
  | .nil =>
    rw [processEntries] at h
    obtain ⟨rfl, rfl⟩ := okPair h
    exact ⟨trivial, fun x hx => hx, fun x hx => hx⟩
  | .cons name (FsTree.file c) rest =>
    rw [processEntries] at h
    simp only at h
    cases hrest : processEntries R dIn om od l rest
        (fs.writeFile (pyJoin od (rename1 l name)) c) with
    | error e => rw [hrest] at h; exact Except.noConfusion h
    | ok p =>
      obtain ⟨fs2, tr2⟩ := p
      rw [hrest] at h
      obtain ⟨rfl, rfl⟩ := okPair h
      have hsub1 : (fs.writeFile (pyJoin od (rename1 l name)) c).allPaths ⊆
          pyJoin od (rename1 l name) :: fs.allPaths := fun x hx =>
        List.mem_cons.mpr ((writeFile_allPaths_iff _ _ _ _).mp hx)
      have hsub2 : fs.allPaths ⊆
          (fs.writeFile (pyJoin od (rename1 l name)) c).allPaths := fun x hx =>
        (writeFile_allPaths_iff _ _ _ _).mpr (Or.inr hx)
      have ih := processEntries_goodTrace R dIn om od l rest _ fs2 tr2
        (hsub2 hod) hrest
      refine ⟨⟨⟨od, rename1 l name, rfl, hod⟩, ?_⟩, hsub2.trans ih.2.1, ?_⟩
      · exact goodTrace_mono tr2 _ _ hsub1 ih.1
      · exact ih.2.2.trans (knownAfter_mono tr2 _ _ hsub1)
  | .cons name (FsTree.symlink absTarget isDir) rest =>
    rw [processEntries] at h
    simp only at h
    by_cases hint : R.isPrefixOf absTarget = true
    · rw [if_pos hint] at h
      cases hcol : collect l R (defaultFuel absTarget) absTarget [] with
      | none => rw [hcol] at h; exact Except.noConfusion h
      | some segs =>
        rw [hcol] at h
        simp only at h
        cases hsym : os_symlink fs (pyJoin om (List.flatten segs.reverse))
            (pyJoin od (rename1 l name)) isDir with
        | error e => rw [hsym] at h; exact Except.noConfusion h
        | ok fs1 =>
          rw [hsym] at h
          simp only at h
          cases os_symlink_ok hsym
          cases hrest : processEntries R dIn om od l rest
              { fs with links := (pyJoin od (rename1 l name),
                  pyJoin om (List.flatten segs.reverse), isDir) :: fs.links } with
          | error e => rw [hrest] at h; exact Except.noConfusion h
          | ok p =>
            obtain ⟨fs2, tr2⟩ := p
            rw [hrest] at h
            obtain ⟨rfl, rfl⟩ := okPair h
            have hsub1 : ({ fs with links := (pyJoin od (rename1 l name),
                pyJoin om (List.flatten segs.reverse), isDir) :: fs.links } : FS).allPaths ⊆
                pyJoin od (rename1 l name) :: fs.allPaths := fun x hx =>
              List.mem_cons.mpr ((link_allPaths_iff _ _ _ _ _).mp hx)
            have hsub2 : fs.allPaths ⊆ ({ fs with links := (pyJoin od (rename1 l name),
                pyJoin om (List.flatten segs.reverse), isDir) :: fs.links } : FS).allPaths :=
              fun x hx => (link_allPaths_iff _ _ _ _ _).mpr (Or.inr hx)
            have ih := processEntries_goodTrace R dIn om od l rest _ fs2 tr2
              (hsub2 hod) hrest
            refine ⟨⟨⟨od, rename1 l name, rfl, hod⟩, ?_⟩, hsub2.trans ih.2.1, ?_⟩
            · exact goodTrace_mono tr2 _ _ hsub1 ih.1
            · exact ih.2.2.trans (knownAfter_mono tr2 _ _ hsub1)
    · rw [if_neg hint] at h
      cases hsym : os_symlink fs absTarget (pyJoin od (rename1 l name)) isDir with
      | error e => rw [hsym] at h; exact Except.noConfusion h
      | ok fs1 =>
        rw [hsym] at h
        simp only at h
        cases os_symlink_ok hsym
        cases hrest : processEntries R dIn om od l rest
            { fs with links := (pyJoin od (rename1 l name),
                absTarget, isDir) :: fs.links } with
        | error e => rw [hrest] at h; exact Except.noConfusion h
        | ok p =>
          obtain ⟨fs2, tr2⟩ := p
          rw [hrest] at h
          obtain ⟨rfl, rfl⟩ := okPair h
          have hsub1 : ({ fs with links := (pyJoin od (rename1 l name),
              absTarget, isDir) :: fs.links } : FS).allPaths ⊆
              pyJoin od (rename1 l name) :: fs.allPaths := fun x hx =>
            List.mem_cons.mpr ((link_allPaths_iff _ _ _ _ _).mp hx)
          have hsub2 : fs.allPaths ⊆ ({ fs with links := (pyJoin od (rename1 l name),
              absTarget, isDir) :: fs.links } : FS).allPaths :=
            fun x hx => (link_allPaths_iff _ _ _ _ _).mpr (Or.inr hx)
          have ih := processEntries_goodTrace R dIn om od l rest _ fs2 tr2
            (hsub2 hod) hrest
          refine ⟨⟨⟨od, rename1 l name, rfl, hod⟩, ?_⟩, hsub2.trans ih.2.1, ?_⟩
          · exact goodTrace_mono tr2 _ _ hsub1 ih.1
          · exact ih.2.2.trans (knownAfter_mono tr2 _ _ hsub1)
  | .cons name (FsTree.dir sub) rest =>
    rw [processEntries] at h
    by_cases hex : fs.pathExists (pyJoin od (rename1 l name)) = true
    · rw [if_pos hex] at h
      have hnp : pyJoin od (rename1 l name) ∈ fs.allPaths :=
        (pathExists_iff _ _).mp hex
      cases hsub : processEntries R (pyJoin dIn name) om
          (pyJoin od (rename1 l name)) l sub fs with
      | error e => rw [hsub] at h; exact Except.noConfusion h
      | ok p =>
        obtain ⟨fs1, tr1⟩ := p
        rw [hsub] at h
        simp only at h
        cases hrest : processEntries R dIn om od l rest fs1 with
        | error e => rw [hrest] at h; exact Except.noConfusion h
        | ok q =>
          obtain ⟨fs2, tr2⟩ := q
          rw [hrest] at h
          obtain ⟨rfl, rfl⟩ := okPair h
          have ihs := processEntries_goodTrace R (pyJoin dIn name) om
            (pyJoin od (rename1 l name)) l sub fs fs1 tr1 hnp hsub
          have ihr := processEntries_goodTrace R dIn om od l rest fs1 fs2 tr2
            (ihs.2.1 hod) hrest
          refine ⟨?_, ihs.2.1.trans ihr.2.1, ?_⟩
          · exact goodTrace_append tr1 tr2 _ ihs.1
              (goodTrace_mono tr2 _ _ ihs.2.2 ihr.1)
          · show fs2.allPaths ⊆ knownAfter fs.allPaths (tr1 ++ tr2)
            rw [knownAfter_append]
            exact ihr.2.2.trans (knownAfter_mono tr2 _ _ ihs.2.2)
    · rw [if_neg hex] at h
      have hex' : fs.pathExists (pyJoin od (rename1 l name)) = false := by
        rw [← Bool.not_eq_true]; exact hex
      have hmk : os_makedirs fs (pyJoin od (rename1 l name))
          = .ok { fs with dirs := pyJoin od (rename1 l name) :: fs.dirs } := by
        unfold os_makedirs
        rw [if_neg (by rw [hex']; exact Bool.false_ne_true)]
      rw [hmk] at h
      simp only at h
      have hnpA : pyJoin od (rename1 l name) ∈
          ({ fs with dirs := pyJoin od (rename1 l name) :: fs.dirs } : FS).allPaths :=
        (mkdirs_allPaths_iff _ _ _).mpr (Or.inl rfl)
      have hsubA1 : ({ fs with dirs := pyJoin od (rename1 l name) :: fs.dirs } : FS).allPaths ⊆
          pyJoin od (rename1 l name) :: fs.allPaths := fun x hx =>
        List.mem_cons.mpr ((mkdirs_allPaths_iff _ _ _).mp hx)
      have hsubA2 : fs.allPaths ⊆
          ({ fs with dirs := pyJoin od (rename1 l name) :: fs.dirs } : FS).allPaths :=
        fun x hx => (mkdirs_allPaths_iff _ _ _).mpr (Or.inr hx)
      cases hsub : processEntries R (pyJoin dIn name) om
          (pyJoin od (rename1 l name)) l sub
          { fs with dirs := pyJoin od (rename1 l name) :: fs.dirs } with
      | error e => rw [hsub] at h; exact Except.noConfusion h
      | ok p =>
        obtain ⟨fsB, trB⟩ := p
        rw [hsub] at h
        simp only at h
        cases hrest : processEntries R dIn om od l rest fsB with
        | error e => rw [hrest] at h; exact Except.noConfusion h
        | ok q =>
          obtain ⟨fs2, tr2⟩ := q
          rw [hrest] at h
          obtain ⟨rfl, rfl⟩ := okPair h
          have ihs := processEntries_goodTrace R (pyJoin dIn name) om
            (pyJoin od (rename1 l name)) l sub _ fsB trB hnpA hsub
          have ihr := processEntries_goodTrace R dIn om od l rest fsB fs2 tr2
            (ihs.2.1 (hsubA2 hod)) hrest
          have hBknown : fsB.allPaths ⊆
              knownAfter (pyJoin od (rename1 l name) :: fs.allPaths) trB :=
            ihs.2.2.trans (knownAfter_mono trB _ _ hsubA1)
          refine ⟨?_, hsubA2.trans (ihs.2.1.trans ihr.2.1), ?_⟩
          · show goodTrace fs.allPaths
              ((Ev.printMakingDir (pyJoin od (rename1 l name))
                :: Ev.mkdir (pyJoin od (rename1 l name)) :: trB) ++ tr2)
            refine goodTrace_append _ tr2 _ ?_ ?_
            · exact goodTrace_mono trB _ _ hsubA1 ihs.1
            · exact goodTrace_mono tr2 _ _ hBknown ihr.1
          · show fs2.allPaths ⊆ knownAfter fs.allPaths
              ((Ev.printMakingDir (pyJoin od (rename1 l name))
                :: Ev.mkdir (pyJoin od (rename1 l name)) :: trB) ++ tr2)
            rw [knownAfter_append]
            exact ihr.2.2.trans (knownAfter_mono tr2 _ _ hBknown)

/-- Claim C8: `__copy_dir_rec` guards directory creation with
`os.path.exists` (temman.py:284-286), so (first part) no run, from any
starting filesystem state — in particular a second run over an existing
destination — can fail with the already-exists error of `os.makedirs`;
and (second part) every successful run's trace satisfies `goodTrace`:
each file or link is written at `os.path.join` of a destination directory
path that either pre-existed or was created (or otherwise brought into
existence) by an earlier event of the trace, i.e. destination directories
are created before anything is written into them. -/
theorem C8_directory_creation_guarded (R dIn om od : Str) (l : Bool)
    (es : FsEntries) (fs : FS) :
    (∀ e, __copy_dir_rec R dIn om od l es fs = .error e →
      isDirExistsErr e = false) ∧
    (∀ fs' tr, __copy_dir_rec R dIn om od l es fs = .ok (fs', tr) →
      goodTrace fs.allPaths tr) := by
  constructor
  · intro e he
    rw [__copy_dir_rec] at he
    by_cases hex : fs.pathExists od = true
    · rw [if_pos hex] at he
      exact processEntries_no_dirExists R dIn om od l es fs e he
    · rw [if_neg hex] at he
      have hex' : fs.pathExists od = false := by
        rw [← Bool.not_eq_true]; exact hex
      have hmk : os_makedirs fs od = .ok { fs with dirs := od :: fs.dirs } := by
        unfold os_makedirs
        rw [if_neg (by rw [hex']; exact Bool.false_ne_true)]
      rw [hmk] at he
      simp only at he
      cases hpe : processEntries R dIn om od l es
          { fs with dirs := od :: fs.dirs } with
      | error e2 =>
        rw [hpe] at he
        injection he with h1
        subst h1
        exact processEntries_no_dirExists R dIn om od l es _ _ hpe
      | ok p => obtain ⟨fs2, tr2⟩ := p; rw [hpe] at he; exact Except.noConfusion he
  · intro fs' tr hok
    rw [__copy_dir_rec] at hok
    by_cases hex : fs.pathExists od = true
    · rw [if_pos hex] at hok
      exact (processEntries_goodTrace R dIn om od l es fs fs' tr
        ((pathExists_iff _ _).mp hex) hok).1
    · rw [if_neg hex] at hok
      have hex' : fs.pathExists od = false := by
        rw [← Bool.not_eq_true]; exact hex
      have hmk : os_makedirs fs od = .ok { fs with dirs := od :: fs.dirs } := by
        unfold os_makedirs
        rw [if_neg (by rw [hex']; exact Bool.false_ne_true)]
      rw [hmk] at hok
      simp only at hok
      cases hpe : processEntries R dIn om od l es
          { fs with dirs := od :: fs.dirs } with
      | error e2 => rw [hpe] at hok; exact Except.noConfusion hok
      | ok p =>
        obtain ⟨fs2, tr2⟩ := p
        rw [hpe] at hok
        obtain ⟨rfl, rfl⟩ := okPair hok
        have hsubA1 : ({ fs with dirs := od :: fs.dirs } : FS).allPaths ⊆
            od :: fs.allPaths := fun x hx =>
          List.mem_cons.mpr ((mkdirs_allPaths_iff _ _ _).mp hx)
        have ihg := (processEntries_goodTrace R dIn om od l es _ fs2 tr2
          ((mkdirs_allPaths_iff _ _ _).mpr (Or.inl rfl)) hpe).1
        exact goodTrace_mono tr2 _ _ hsubA1 ihg

/-- Witness for C8: a one-file tree copied into the empty filesystem. -/
theorem C8_directory_creation_guarded_witness :
    goodTrace emptyFS.allPaths
      [Ev.printMakingDir "/d".data, Ev.mkdir "/d".data,
       Ev.printCopy ( print_copy_file "/s/a".data "/d/a".data
         (some "Regular file".data)),
       Ev.copyFile "/s/a".data "/d/a".data] :=
  (C8_directory_creation_guarded "/s".data "/s".data "/d".data "/d".data true
    (.cons "a".data (.file "x".data) .nil) emptyFS).2
    ⟨["/d".data], [("/d/a".data, "x".data)], []⟩ _ (by rfl)

/-! ### Frame property: all mutations land under the destination root (claim C9) -/

/-- The path mutated by an event (the destination of a write, the created
directory), if any.  Reads (file sources, link targets) mutate nothing. -/
def mutPaths : Ev → List Str
  | .mkdir p => [p]
  | .copyFile _ dst => [dst]
  | .mklink _ dst _ => [dst]
  | _ => []

/-- `p` lies under root `root`: it is the root itself or extends it past a
path separator. -/
def underP (root p : Str) : Prop :=
  p = root ∨ (root ++ ['/']).isPrefixOf p = true

mutual
/-- Well-formed scandir entry names throughout a tree: nonempty and free of
path separators (as `os.scandir` guarantees). -/
def namesWf : FsTree → Prop
  | .file _ => True
  | .symlink _ _ => True
  | .dir es => namesWfE es
def namesWfE : FsEntries → Prop
  | .nil => True
  | .cons n t r => (n ≠ [] ∧ '/' ∉ n) ∧ namesWf t ∧ namesWfE r
end

theorem rename1_wf (l : Bool) (n : Str) (h1 : n ≠ []) (h2 : '/' ∉ n) :
    rename1 l n ≠ [] ∧ '/' ∉ rename1 l n := by
  rw [rename1, change_prefix]
  by_cases hp : (oldPref l).isPrefixOf n = true
  · rw [if_pos hp]
    constructor
    · intro hcon
      have hnil : newPref l = [] := (List.append_eq_nil.mp hcon).1
      cases l <;> simp [newPref, DOTS_LONG] at hnil
    · intro hmem
      rcases List.mem_append.mp hmem with hm | hm
      · cases l
        · exact absurd hm (by decide)
        · exact absurd hm (by decide)
      · exact h2 (List.drop_subset _ _ hm)
  · rw [if_neg hp]; exact ⟨h1, h2⟩

theorem pyJoin_sep (d n : Str) (hd1 : d ≠ []) (hd2 : d.getLast? ≠ some '/')
    (hn1 : n ≠ []) (hn2 : '/' ∉ n) :
    pyJoin d n = d ++ '/' :: n := by
  have hhead : ¬(n.head? = some '/') := by
    cases n with
    | nil => simp
    | cons a as =>
      simp only [List.head?_cons]
      intro hc
      injection hc with hc
      subst hc
      exact hn2 (List.mem_cons_self _ _)
  rw [pyJoin, if_neg hhead, if_neg hd1, if_neg hd2]

theorem joined_getLast?_ne_slash (d n : Str) (hn1 : n ≠ []) (hn2 : '/' ∉ n) :
    (d ++ '/' :: n).getLast? ≠ some '/' := by
  intro hc
  rw [List.getLast?_append_of_ne_nil _ (by simp)] at hc
  cases n with
  | nil => exact hn1 rfl
  | cons b bs =>
    rw [List.getLast?_cons_cons] at hc
    exact hn2 (List.mem_of_getLast?_eq_some hc)

theorem underP_join (om d n : Str) (h : underP om d) (hd1 : d ≠ [])
    (hd2 : d.getLast? ≠ some '/') (hn1 : n ≠ []) (hn2 : '/' ∉ n) :
    underP om (pyJoin d n) := by
  rw [pyJoin_sep d n hd1 hd2 hn1 hn2]
  right
  rw [List.isPrefixOf_iff_prefix]
  rcases h with rfl | hpre
  · exact ⟨n, by simp⟩
  · rw [List.isPrefixOf_iff_prefix] at hpre
    exact hpre.trans (List.prefix_append _ _)

theorem processEntries_frame (R dIn om od : Str) (l : Bool)
    (es : FsEntries) (fs fs' : FS) (tr : List Ev)
    (hwf : namesWfE es)
    (hod : underP om od ∧ od ≠ [] ∧ od.getLast? ≠ some '/')
    (h : processEntries R dIn om od l es fs = .ok (fs', tr)) :
    ∀ ev ∈ tr, ∀ p ∈ mutPaths ev, underP om p := by
  match es with
  | .nil =>
    rw [processEntries] at h
    obtain ⟨rfl, rfl⟩ := okPair h
    intro ev hev
    exact absurd hev (List.not_mem_nil ev)
  | .cons name (FsTree.file c) rest =>
    rw [processEntries] at h
    simp only at h
    have hrn := rename1_wf l name hwf.1.1 hwf.1.2
    have hnpu : underP om (pyJoin od (rename1 l name)) :=
      underP_join om od _ hod.1 hod.2.1 hod.2.2 hrn.1 hrn.2
    cases hrest : processEntries R dIn om od l rest
        (fs.writeFile (pyJoin od (rename1 l name)) c) with
    | error e => rw [hrest] at h; exact Except.noConfusion h
    | ok p =>
      obtain ⟨fs2, tr2⟩ := p
      rw [hrest] at h
      obtain ⟨rfl, rfl⟩ := okPair h
      have ihr := processEntries_frame R dIn om od l rest _ fs2 tr2
        hwf.2.2 hod hrest
      intro ev hev q hq
      rcases List.mem_cons.mp hev with rfl | hev
      · exact absurd hq (List.not_mem_nil q)
      rcases List.mem_cons.mp hev with rfl | hev
      · rcases List.mem_cons.mp hq with rfl | hq
        · exact hnpu
        · exact absurd hq (List.not_mem_nil q)
      · exact ihr ev hev q hq
  | .cons name (FsTree.symlink absTarget isDir) rest =>
    rw [processEntries] at h
    simp only at h
    have hrn := rename1_wf l name hwf.1.1 hwf.1.2
    have hnpu : underP om (pyJoin od (rename1 l name)) :=
      underP_join om od _ hod.1 hod.2.1 hod.2.2 hrn.1 hrn.2
    by_cases hint : R.isPrefixOf absTarget = true
    · rw [if_pos hint] at h
      cases hcol : collect l R (defaultFuel absTarget) absTarget [] with
      | none => rw [hcol] at h; exact Except.noConfusion h
      | some segs =>
        rw [hcol] at h
        simp only at h
        cases hsym : os_symlink fs (pyJoin om (List.flatten segs.reverse))
            (pyJoin od (rename1 l name)) isDir with
        | error e => rw [hsym] at h; exact Except.noConfusion h
        | ok fs1 =>
          rw [hsym] at h
          simp only at h
          cases hrest : processEntries R dIn om od l rest fs1 with
          | error e => rw [hrest] at h; exact Except.noConfusion h
          | ok p =>
            obtain ⟨fs2, tr2⟩ := p
            rw [hrest] at h
            obtain ⟨rfl, rfl⟩ := okPair h
            have ihr := processEntries_frame R dIn om od l rest fs1 fs2 tr2
              hwf.2.2 hod hrest
            intro ev hev q hq
            rcases List.mem_cons.mp hev with rfl | hev
            · rcases List.mem_cons.mp hq with rfl | hq
              · exact hnpu
              · exact absurd hq (List.not_mem_nil q)
            · exact ihr ev hev q hq
    · rw [if_neg hint] at h
      cases hsym : os_symlink fs absTarget (pyJoin od (rename1 l name)) isDir with
      | error e => rw [hsym] at h; exact Except.noConfusion h
      | ok fs1 =>
        rw [hsym] at h
        simp only at h
        cases hrest : processEntries R dIn om od l rest fs1 with
        | error e => rw [hrest] at h; exact Except.noConfusion h
        | ok p =>
          obtain ⟨fs2, tr2⟩ := p
          rw [hrest] at h
          obtain ⟨rfl, rfl⟩ := okPair h
          have ihr := processEntries_frame R dIn om od l rest fs1 fs2 tr2
            hwf.2.2 hod hrest
          intro ev hev q hq
          rcases List.mem_cons.mp hev with rfl | hev
          · exact absurd hq (List.not_mem_nil q)
          rcases List.mem_cons.mp hev with rfl | hev
          · rcases List.mem_cons.mp hq with rfl | hq
            · exact hnpu
            · exact absurd hq (List.not_mem_nil q)
          · exact ihr ev hev q hq
  | .cons name (FsTree.dir sub) rest =>
    rw [processEntries] at h
    have hrn := rename1_wf l name hwf.1.1 hwf.1.2
    have hnpu : underP om (pyJoin od (rename1 l name)) :=
      underP_join om od _ hod.1 hod.2.1 hod.2.2 hrn.1 hrn.2
    have hsep := pyJoin_sep od (rename1 l name) hod.2.1 hod.2.2 hrn.1 hrn.2
    have hnp1 : pyJoin od (rename1 l name) ≠ [] := by
      rw [hsep]; simp
    have hnp2 : (pyJoin od (rename1 l name)).getLast? ≠ some '/' := by
      rw [hsep]; exact joined_getLast?_ne_slash _ _ hrn.1 hrn.2
    by_cases hex : fs.pathExists (pyJoin od (rename1 l name)) = true
    · rw [if_pos hex] at h
      cases hsub : processEntries R (pyJoin dIn name) om
          (pyJoin od (rename1 l name)) l sub fs with
      | error e => rw [hsub] at h; exact Except.noConfusion h
      | ok p =>
        obtain ⟨fs1, tr1⟩ := p
        rw [hsub] at h
        simp only at h
        cases hrest : processEntries R dIn om od l rest fs1 with
        | error e => rw [hrest] at h; exact Except.noConfusion h
        | ok q =>
          obtain ⟨fs2, tr2⟩ := q
          rw [hrest] at h
          obtain ⟨rfl, rfl⟩ := okPair h
          have ihs := processEntries_frame R (pyJoin dIn name) om
            (pyJoin od (rename1 l name)) l sub fs fs1 tr1
            hwf.2.1 ⟨hnpu, hnp1, hnp2⟩ hsub
          have ihr := processEntries_frame R dIn om od l rest fs1 fs2 tr2
            hwf.2.2 hod hrest
          intro ev hev q hq
          rcases List.mem_cons.mp hev with rfl | hev
          · exact absurd hq (List.not_mem_nil q)
          rcases List.mem_append.mp hev with hev | hev
          · exact ihs ev hev q hq
          · exact ihr ev hev q hq
    · rw [if_neg hex] at h
      have hex' : fs.pathExists (pyJoin od (rename1 l name)) = false := by
        rw [← Bool.not_eq_true]; exact hex
      have hmk : os_makedirs fs (pyJoin od (rename1 l name))
          = .ok { fs with dirs := pyJoin od (rename1 l name) :: fs.dirs } := by
        unfold os_makedirs
        rw [if_neg (by rw [hex']; exact Bool.false_ne_true)]
      rw [hmk] at h
      simp only at h
      cases hsub : processEntries R (pyJoin dIn name) om
          (pyJoin od (rename1 l name)) l sub
          { fs with dirs := pyJoin od (rename1 l name) :: fs.dirs } with
      | error e => rw [hsub] at h; exact Except.noConfusion h
      | ok p =>
        obtain ⟨fsB, trB⟩ := p
        rw [hsub] at h
        simp only at h
        cases hrest : processEntries R dIn om od l rest fsB with
        | error e => rw [hrest] at h; exact Except.noConfusion h
        | ok q =>
          obtain ⟨fs2, tr2⟩ := q
          rw [hrest] at h
          obtain ⟨rfl, rfl⟩ := okPair h
          have ihs := processEntries_frame R (pyJoin dIn name) om
            (pyJoin od (rename1 l name)) l sub _ fsB trB
            hwf.2.1 ⟨hnpu, hnp1, hnp2⟩ hsub
          have ihr := processEntries_frame R dIn om od l rest fsB fs2 tr2
            hwf.2.2 hod hrest
          intro ev hev q hq
          rcases List.mem_cons.mp hev with rfl | hev
          · exact absurd hq (List.not_mem_nil q)
          rcases List.mem_append.mp hev with hev | hev
          · rcases List.mem_cons.mp hev with rfl | hev
            · exact absurd hq (List.not_mem_nil q)
            rcases List.mem_cons.mp hev with rfl | hev
            · rcases List.mem_cons.mp hq with rfl | hq
              · exact hnpu
              · exact absurd hq (List.not_mem_nil q)
            · exact ihs ev hev q hq
          · exact ihr ev hev q hq

/-- Claim C9: every filesystem mutation of a run of `copy_dir` — directory
creation, file write, link creation — targets a path under the destination
root (the root itself or an extension of it past a '/'), and, whenever no
path under the destination root is also under the source root, no mutation
touches any path under the source root.  Hypotheses: entry names are as
`os.scandir` yields them (nonempty, no '/'), and the destination root is a
nonempty path without a trailing slash. -/
theorem C9_mutations_only_under_destination (dIn od : Str) (l : Bool)
    (es : FsEntries) (fs fs' : FS) (tr : List Ev)
    (hwf : namesWfE es)
    (hod1 : od ≠ []) (hod2 : od.getLast? ≠ some '/')
    (hdisj : ∀ p, underP od p → ¬ underP dIn p)
    (h : copy_dir dIn od l es fs = .ok (fs', tr)) :
    ∀ ev ∈ tr, ∀ p ∈ mutPaths ev, underP od p ∧ ¬ underP dIn p := by
  have main : ∀ ev ∈ tr, ∀ p ∈ mutPaths ev, underP od p := by
    rw [copy_dir, __copy_dir_rec] at h
    by_cases hex : fs.pathExists od = true
    · rw [if_pos hex] at h
      exact processEntries_frame dIn dIn od od l es fs fs' tr hwf
        ⟨Or.inl rfl, hod1, hod2⟩ h
    · rw [if_neg hex] at h
      have hex' : fs.pathExists od = false := by
        rw [← Bool.not_eq_true]; exact hex
      have hmk : os_makedirs fs od = .ok { fs with dirs := od :: fs.dirs } := by
        unfold os_makedirs
        rw [if_neg (by rw [hex']; exact Bool.false_ne_true)]
      rw [hmk] at h
      simp only at h
      cases hpe : processEntries dIn dIn od od l es
          { fs with dirs := od :: fs.dirs } with
      | error e => rw [hpe] at h; exact Except.noConfusion h
      | ok p =>
        obtain ⟨fs2, tr2⟩ := p
        rw [hpe] at h
        obtain ⟨rfl, rfl⟩ := okPair h
        have ihr := processEntries_frame dIn dIn od od l es _ fs2 tr2 hwf
          ⟨Or.inl rfl, hod1, hod2⟩ hpe
        intro ev hev q hq
        rcases List.mem_cons.mp hev with rfl | hev
        · exact absurd hq (List.not_mem_nil q)
        rcases List.mem_cons.mp hev with rfl | hev
        · rcases List.mem_cons.mp hq with rfl | hq
          · exact Or.inl rfl
          · exact absurd hq (List.not_mem_nil q)
        · exact ihr ev hev q hq
  exact fun ev hev p hp => ⟨main ev hev p hp, hdisj p (main ev hev p hp)⟩

theorem underP_slash_d_s_disjoint :
    ∀ p, underP "/d".data p → ¬ underP "/s".data p := by
  intro p hp hs
  rcases hp with rfl | hp
  · rcases hs with he | hs
    · exact absurd he (by decide)
    · exact absurd hs (by decide)
  · rcases hs with rfl | hs
    · exact absurd hp (by decide)
    · rw [List.isPrefixOf_iff_prefix] at hp hs
      obtain ⟨t1, h1⟩ := hp
      obtain ⟨t2, h2⟩ := hs
      rw [← h1] at h2
      simp at h2

/-- Witness for C9 on a one-file tree copied from `/s` into `/d`,
instantiated at the file-write event of the run's trace. -/
theorem C9_mutations_only_under_destination_witness :
    underP "/d".data "/d/a".data ∧ ¬ underP "/s".data "/d/a".data :=
  C9_mutations_only_under_destination "/s".data "/d".data true
    (.cons "a".data (.file "x".data) .nil) emptyFS
    ⟨["/d".data], [("/d/a".data, "x".data)], []⟩
    [Ev.printMakingDir "/d".data, Ev.mkdir "/d".data,
     Ev.printCopy ( print_copy_file "/s/a".data "/d/a".data
       (some "Regular file".data)),
     Ev.copyFile "/s/a".data "/d/a".data]
    ⟨⟨by decide, by decide⟩, trivial, trivial⟩
    (by decide) (by decide) underP_slash_d_s_disjoint (by rfl)
    (Ev.copyFile "/s/a".data "/d/a".data) (by decide) "/d/a".data (by decide)

/-- Claim C4: processing a symbolic-link entry whose resolved target does
not pass the `startswith` test against the resolved master source root
(external link) creates at the renamed destination path a link whose
stored target is byte-identical to the resolved absolute target
`absTarget`, with no renaming applied, for either rename direction.  (The
hypothesis `hfree` says the destination path is not already occupied, so
`os.symlink` succeeds.) -/
theorem C4_external_link_copied_verbatim (R dIn om od : Str) (l : Bool)
    (name absTarget : Str) (isDir : Bool) (fs : FS)
    (hext : R.isPrefixOf absTarget = false)
    (hfree : fs.pathExists (pyJoin od (rename1 l name)) = false) :
    processEntries R dIn om od l
        (.cons name (.symlink absTarget isDir) .nil) fs
      = .ok ({ fs with links :=
            (pyJoin od (rename1 l name), absTarget, isDir) :: fs.links },
          [Ev.printCopy ( print_copy_file (pyJoin dIn name)
             (pyJoin od (rename1 l name))
             (some ("Symlink with old target:\n\t".data ++ absTarget
               ++ "\nAnd new target:\n\t".data ++ absTarget))),
           Ev.mklink absTarget (pyJoin od (rename1 l name)) isDir]) := by
  rw [processEntries]
  simp only
  rw [if_neg (by rw [hext]; exact Bool.false_ne_true)]
  have hsym : os_symlink fs absTarget (pyJoin od (rename1 l name)) isDir
      = .ok { fs with links :=
          (pyJoin od (rename1 l name), absTarget, isDir) :: fs.links } := by
    unfold os_symlink
    rw [if_neg (by rw [hfree]; exact Bool.false_ne_true)]
  rw [hsym]
  rfl

/-- Witness for C4: external link `/etc/hosts` from `/s` to `/d`. -/
theorem C4_external_link_copied_verbatim_witness :
    processEntries "/s".data "/s".data "/d".data "/d".data true
        (.cons "link1".data (.symlink "/etc/hosts".data false) .nil) emptyFS
      = .ok ({ emptyFS with links :=
            (pyJoin "/d".data (rename1 true "link1".data),
             "/etc/hosts".data, false) :: emptyFS.links },
          [Ev.printCopy ( print_copy_file (pyJoin "/s".data "link1".data)
             (pyJoin "/d".data (rename1 true "link1".data))
             (some ("Symlink with old target:\n\t".data ++ "/etc/hosts".data
               ++ "\nAnd new target:\n\t".data ++ "/etc/hosts".data))),
           Ev.mklink "/etc/hosts".data
             (pyJoin "/d".data (rename1 true "link1".data)) false]) :=
  C4_external_link_copied_verbatim "/s".data "/s".data "/d".data "/d".data true
    "link1".data "/etc/hosts".data false emptyFS (by decide) (by decide)
